import Mathlib

/-!
Verification of `src/server/conn/auto.rs` (hyper-util auto connection).

Shallow embedding of the protocol-version sniffer and connection dispatcher.

* Bytes are modelled as `Nat` (the numeric value of each `u8`).
* The transport is modelled as a script of read results (`ReadResult`): each
  successful `poll_read` delivers a chunk of bytes (an empty chunk is
  end-of-stream), a read may also be `pending` (the future suspends) or fail
  with an I/O error (identified by a numeric code).
* `ReadVersion::poll` is embedded as `readVersionPoll`: a single invocation of
  the future's `poll`, looping over reads until the transport suspends, errors,
  or classification completes.  The in-flight state of the future is the pair
  of the filled bytes (the detection buffer up to the fill cursor) and the
  current `Version` value.
* `readVersionRun` drives the future to completion (poll until ready), the way
  an executor does; `readVersionRun_poll_step` proves it is exactly the
  iteration of `readVersionPoll`.
* The `Connection` / `UpgradeableConnection` state machines are embedded with
  the hyper protocol engines as opaque external collaborators (`Engine`,
  with their poll behaviour a universally quantified parameter), and the
  `http1` / `http2` cargo features as boolean parameters.
-/

/-- The two protocol generations (`enum Version { H1, H2 }`). -/
inductive Version where
  | H1 : Version
  | H2 : Version
deriving DecidableEq, Repr

/-- `const H2_PREFACE: &[u8] = b"PRI * HTTP/2.0\r\n\r\nSM\r\n\r\n";`
    written out byte by byte (24 bytes). -/
def H2_PREFACE : List Nat :=
  [80, 82, 73, 32, 42, 32, 72, 84, 84, 80, 47, 50, 46, 48,
   13, 10, 13, 10, 83, 77, 13, 10, 13, 10]

/-- One result of a `poll_read` on the transport: a successful read delivering
    a chunk of bytes (the empty chunk means end-of-stream), a suspension, or an
    I/O error carrying an opaque numeric code. -/
inductive ReadResult where
  | chunk : List Nat → ReadResult
  | pending : ReadResult
  | ioError : Nat → ReadResult
deriving DecidableEq, Repr

/-- Outcome of polling the `ReadVersion` future.
    * `ready version buf rest`: `Poll::Ready(Ok((version, Rewind::new_buffered(io, buf))))`
      — classification plus the bytes priming the rewindable transport; `rest`
      is the part of the transport script not consumed during detection.
    * `ioErr e rest`: `Poll::Ready(Err(e))` — the transport error propagated.
    * `pending filled version rest`: `Poll::Pending` with the future's saved
      state (fill buffer and current version) and the unconsumed script. -/
inductive PollOut where
  | ready : Version → List Nat → List ReadResult → PollOut
  | ioErr : Nat → List ReadResult → PollOut
  | pending : List Nat → Version → List ReadResult → PollOut
deriving DecidableEq, Repr

/-- One invocation of `ReadVersion::poll` (see `impl Future for ReadVersion`).

The loop `while buf.filled().len() < H2_PREFACE.len()` reads from the
transport; each read delivers at most the unfilled space
(`H2_PREFACE.len() - filled`) many bytes.  If a read makes no progress
(end of stream) or the newly delivered bytes differ from the corresponding
slice `H2_PREFACE[len..filled]` of the preface, the version switches to `H1`
and the loop breaks; completion returns the version together with
`buf.filled().to_vec()`.  A `Pending` read propagates `Poll::Pending`
(via `ready!`), an `Err` propagates the error (via `?`). -/
def readVersionPoll : List ReadResult → List Nat → Version → PollOut
  | [], filled, version =>
    if H2_PREFACE.length ≤ filled.length then .ready version filled []
    else .pending filled version []
  | .pending :: rest, filled, version =>
    if H2_PREFACE.length ≤ filled.length then .ready version filled (.pending :: rest)
    else .pending filled version rest
  | .ioError e :: rest, filled, version =>
    if H2_PREFACE.length ≤ filled.length then .ready version filled (.ioError e :: rest)
    else .ioErr e rest
  | .chunk b :: rest, filled, version =>
    if H2_PREFACE.length ≤ filled.length then .ready version filled (.chunk b :: rest)
    else
      let delivered := b.take (H2_PREFACE.length - filled.length)
      if delivered.length = 0 ∨
          delivered ≠ (H2_PREFACE.drop filled.length).take delivered.length then
        .ready .H1 (filled ++ delivered) rest
      else
        readVersionPoll rest (filled ++ delivered) version

/-- Driving the `ReadVersion` future to completion: the executor re-polls the
    future whenever it suspends, resuming from the saved state.
    `readVersionRun_poll_step` below proves this function is exactly
    "`readVersionPoll`, and on `Poll::Pending` poll again from the saved
    state". -/
def readVersionRun : List ReadResult → List Nat → Version → PollOut
  | [], filled, version =>
    if H2_PREFACE.length ≤ filled.length then .ready version filled []
    else .pending filled version []
  | .pending :: rest, filled, version =>
    if H2_PREFACE.length ≤ filled.length then .ready version filled (.pending :: rest)
    else readVersionRun rest filled version
  | .ioError e :: rest, filled, version =>
    if H2_PREFACE.length ≤ filled.length then .ready version filled (.ioError e :: rest)
    else .ioErr e rest
  | .chunk b :: rest, filled, version =>
    if H2_PREFACE.length ≤ filled.length then .ready version filled (.chunk b :: rest)
    else
      let delivered := b.take (H2_PREFACE.length - filled.length)
      if delivered.length = 0 ∨
          delivered ≠ (H2_PREFACE.drop filled.length).take delivered.length then
        .ready .H1 (filled ++ delivered) rest
      else
        readVersionRun rest (filled ++ delivered) version

/-- Concatenation of a sequence of read chunks: the byte stream a peer sent,
    in arrival order. -/
def joinChunks : List (List Nat) → List Nat
  | [] => []
  | c :: cs => c ++ joinChunks cs

/-- `fn read_version<I>(io: I)` initialises the future with an empty fill
    cursor and `version: Version::H2`; this is the detection outcome starting
    from that initial state. -/
def detectVersion (t : List ReadResult) : PollOut :=
  readVersionRun t [] .H2

theorem H2_PREFACE_length : H2_PREFACE.length = 24 := by decide

/-- `readVersionRun` is the iteration of single `poll` calls: it behaves as one
    `readVersionPoll`, and when that suspends, as re-polling from the suspended
    state.  This certifies that driving the future with any executor (any
    number of `Poll::Pending` round trips) is what `readVersionRun` computes. -/
theorem readVersionRun_poll_step (t : List ReadResult) :
    ∀ filled version,
      readVersionRun t filled version =
        match readVersionPoll t filled version with
        | .pending f v rest => readVersionRun rest f v
        | out => out := by
  induction t with
  | nil =>
    intro filled version
    by_cases h : H2_PREFACE.length ≤ filled.length <;>
      simp [readVersionPoll, readVersionRun, h]
  | cons hd rest ih =>
    intro filled version
    cases hd with
    | pending =>
      by_cases h : H2_PREFACE.length ≤ filled.length <;>
        simp [readVersionPoll, readVersionRun, h]
    | ioError e =>
      by_cases h : H2_PREFACE.length ≤ filled.length <;>
        simp [readVersionPoll, readVersionRun, h]
    | chunk b =>
      by_cases h : H2_PREFACE.length ≤ filled.length
      · simp [readVersionPoll, readVersionRun, h]
      · simp only [readVersionPoll, readVersionRun, if_neg h]
        split_ifs with hc
        · rfl
        · exact ih _ _

/-- Once the buffer is full, any further drive completes at once with the
    current version and consumes nothing (the loop guard fails). -/
theorem readVersionRun_full (t : List ReadResult) (filled : List Nat) (version : Version)
    (h : H2_PREFACE.length ≤ filled.length) :
    readVersionRun t filled version = .ready version filled t := by
  cases t with
  | nil => simp [readVersionRun, h]
  | cons hd rest => cases hd <;> simp [readVersionRun, h]

/-- Any two lists are related by: the second extends the first, the first
    extends the second strictly, or they differ at a first index `k`. -/
theorem take_trichotomy (p : List Nat) :
    ∀ bs : List Nat,
      bs.take p.length = p ∨
      (bs = p.take bs.length ∧ bs.length < p.length) ∨
      ∃ k, k < p.length ∧ k < bs.length ∧ bs.take k = p.take k ∧ bs[k]? ≠ p[k]? := by
  induction p with
  | nil => intro bs; left; simp
  | cons a p' ih =>
    intro bs
    cases bs with
    | nil => right; left; simp
    | cons x bs' =>
      by_cases hxa : x = a
      · subst hxa
        rcases ih bs' with h | ⟨h1, h2⟩ | ⟨k, hk1, hk2, hk3, hk4⟩
        · left; simp [h]
        · right; left
          constructor
          · simpa using h1
          · simpa using h2
        · right; right
          exact ⟨k + 1, by simpa using hk1, by simpa using hk2, by simp [hk3],
            by simpa using hk4⟩
      · right; right
        refine ⟨0, by simp, by simp, by simp, ?_⟩
        simp only [List.getElem?_cons_zero]
        exact fun hcontra => hxa (Option.some.inj hcontra)

/-- Preface-matching progress: if, starting from a fill buffer holding the
    first `n` preface bytes, the bytes still to arrive begin with the missing
    `H2_PREFACE.length - n` preface bytes, detection completes with the
    version unchanged and the rewind buffer primed with exactly the preface. -/
theorem run_chunks_complete_h2 (cs : List (List Nat)) :
    ∀ (n : Nat) (rest : List ReadResult) (version : Version),
      (∀ c ∈ cs, c ≠ []) →
      n ≤ H2_PREFACE.length →
      H2_PREFACE.drop n = (joinChunks cs).take (H2_PREFACE.length - n) →
      ∃ r, readVersionRun (cs.map .chunk ++ rest) (H2_PREFACE.take n) version
            = .ready version H2_PREFACE r := by
  induction cs with
  | nil =>
    intro n rest version _ hn hpre
    have hnil : H2_PREFACE.drop n = [] := by simpa [joinChunks] using hpre
    have hge : H2_PREFACE.length ≤ n := List.drop_eq_nil_iff.mp hnil
    have hn' : n = H2_PREFACE.length := Nat.le_antisymm hn hge
    refine ⟨rest, ?_⟩
    have hPf : H2_PREFACE.take n = H2_PREFACE := by
      rw [hn']; exact List.take_length _
    rw [List.map_nil, List.nil_append, hPf]
    exact readVersionRun_full _ _ _ (Nat.le_refl _)
  | cons b cs' ih =>
    intro n rest version hne hn hpre
    by_cases hfull : H2_PREFACE.length ≤ n
    · have hn' : n = H2_PREFACE.length := Nat.le_antisymm hn hfull
      have hPf : H2_PREFACE.take n = H2_PREFACE := by
        rw [hn']; exact List.take_length _
      refine ⟨ReadResult.chunk b :: (cs'.map .chunk ++ rest), ?_⟩
      rw [hPf]
      simpa using readVersionRun_full ((b :: cs').map .chunk ++ rest)
        H2_PREFACE version (Nat.le_refl _)
    · have hlt : n < H2_PREFACE.length := Nat.lt_of_le_of_ne hn (fun h => hfull h.ge)
      have hb : b ≠ [] := hne b (by simp)
      have hbpos : 0 < b.length := List.length_pos.mpr hb
      have hflen : (H2_PREFACE.take n).length = n := by
        simp only [List.length_take]; omega
      simp only [joinChunks] at hpre
      rw [List.take_append_eq_append_take] at hpre
      -- hpre : H2_PREFACE.drop n
      --      = b.take (pl - n) ++ (joinChunks cs').take (pl - n - b.length)
      have hmatch : b.take (H2_PREFACE.length - n)
          = (H2_PREFACE.drop n).take (b.take (H2_PREFACE.length - n)).length := by
        rw [hpre, List.take_left]
      have hstep : (b :: cs').map ReadResult.chunk ++ rest
          = ReadResult.chunk b :: (cs'.map ReadResult.chunk ++ rest) := by simp
      rw [hstep]
      simp only [readVersionRun, hflen, if_neg (not_le.mpr hlt)]
      split_ifs with hc
      · exfalso
        rcases hc with h0 | hneq
        · have : (b.take (H2_PREFACE.length - n)).length
              = min (H2_PREFACE.length - n) b.length := List.length_take _ _
          omega
        · exact hneq hmatch
      · have hfd : H2_PREFACE.take (n + (b.take (H2_PREFACE.length - n)).length)
            = H2_PREFACE.take n ++ b.take (H2_PREFACE.length - n) := by
          rw [List.take_add, ← hmatch]
        have hmlen : (b.take (H2_PREFACE.length - n)).length
            = min (H2_PREFACE.length - n) b.length := List.length_take _ _
        have hpre' : H2_PREFACE.drop (n + (b.take (H2_PREFACE.length - n)).length)
            = (joinChunks cs').take
                (H2_PREFACE.length - (n + (b.take (H2_PREFACE.length - n)).length)) := by
          by_cases hbl : H2_PREFACE.length - n ≤ b.length
          · have hm : (b.take (H2_PREFACE.length - n)).length = H2_PREFACE.length - n := by
              omega
            rw [hm]
            have h1 : n + (H2_PREFACE.length - n) = H2_PREFACE.length := by omega
            rw [h1]
            simp
          · have hm : (b.take (H2_PREFACE.length - n)).length = b.length := by omega
            rw [hm]
            have hbfull : b.take (H2_PREFACE.length - n) = b :=
              List.take_of_length_le (by omega)
            rw [hbfull] at hpre
            have h2 : H2_PREFACE.drop (n + b.length) = (H2_PREFACE.drop n).drop b.length := by
              rw [List.drop_drop]
            rw [h2, hpre, List.drop_left]
            congr 1
            omega
        obtain ⟨r, hr⟩ := ih (n + (b.take (H2_PREFACE.length - n)).length) rest version
          (fun c hc => hne c (by simp [hc])) (by omega) hpre'
        refine ⟨r, ?_⟩
        rw [← hfd]
        exact hr

/-- End-of-stream while matching: if all bytes that arrive match the preface
    but the stream reports end-of-stream (a read delivering zero bytes) while
    the buffer is still short of the preface length, detection completes
    immediately with `H1` and the rewind buffer holds exactly the bytes read;
    nothing after the end-of-stream read is consumed. -/
theorem run_chunks_eof_h1 (cs : List (List Nat)) :
    ∀ (n : Nat) (rest : List ReadResult) (version : Version),
      (∀ c ∈ cs, c ≠ []) →
      n + (joinChunks cs).length < H2_PREFACE.length →
      joinChunks cs = (H2_PREFACE.drop n).take (joinChunks cs).length →
      readVersionRun (cs.map .chunk ++ .chunk [] :: rest) (H2_PREFACE.take n) version
        = .ready .H1 (H2_PREFACE.take n ++ joinChunks cs) rest := by
  induction cs with
  | nil =>
    intro n rest version _ hlen _
    have hn : n < H2_PREFACE.length := by
      simp only [joinChunks, List.length_nil, Nat.add_zero] at hlen
      exact hlen
    have hflen : (H2_PREFACE.take n).length = n := by
      simp only [List.length_take]; omega
    simp [readVersionRun, joinChunks, hflen, not_le.mpr hn]
  | cons b cs' ih =>
    intro n rest version hne hlen hpre
    simp only [joinChunks] at hpre hlen ⊢
    rw [List.length_append] at hlen
    have hn : n < H2_PREFACE.length := by omega
    have hb : b ≠ [] := hne b (by simp)
    have hbpos : 0 < b.length := List.length_pos.mpr hb
    have hflen : (H2_PREFACE.take n).length = n := by
      simp only [List.length_take]; omega
    have hbdel : b.take (H2_PREFACE.length - n) = b :=
      List.take_of_length_le (by omega)
    have hmatch : b = (H2_PREFACE.drop n).take b.length := by
      have h1 := congrArg (List.take b.length) hpre
      rw [List.take_left, List.length_append, List.take_take,
        Nat.min_eq_left (Nat.le_add_right _ _)] at h1
      exact h1
    have hstep : (b :: cs').map ReadResult.chunk ++ ReadResult.chunk [] :: rest
        = ReadResult.chunk b :: (cs'.map ReadResult.chunk ++ ReadResult.chunk [] :: rest) := by
      simp
    rw [hstep]
    simp only [readVersionRun, hflen, if_neg (not_le.mpr hn)]
    split_ifs with hc
    · exfalso
      rcases hc with h0 | hneq
      · rw [hbdel] at h0
        omega
      · apply hneq
        rw [hbdel]
        exact hmatch
    · have hnb : H2_PREFACE.take (n + b.length) = H2_PREFACE.take n ++ b := by
        rw [List.take_add, ← hmatch]
      have hpre' : joinChunks cs' = (H2_PREFACE.drop (n + b.length)).take (joinChunks cs').length := by
        rw [List.length_append, List.take_add, ← hmatch] at hpre
        have h2 : (H2_PREFACE.drop n).drop b.length = H2_PREFACE.drop (n + b.length) := by
          rw [List.drop_drop]
        rw [h2] at hpre
        exact List.append_inj_right hpre rfl
      rw [hbdel, ← List.append_assoc, ← hnb]
      exact ih (n + b.length) rest version (fun c hc => hne c (by simp [hc])) (by omega) hpre'

/-- Transport error while matching: if all bytes that arrive match the preface
    but a read fails before the buffer is full, the error is propagated
    verbatim, no classification and no rewind buffer are produced, and nothing
    after the failing read is consumed. -/
theorem run_chunks_ioErr (cs : List (List Nat)) :
    ∀ (n : Nat) (e : Nat) (rest : List ReadResult) (version : Version),
      (∀ c ∈ cs, c ≠ []) →
      n + (joinChunks cs).length < H2_PREFACE.length →
      joinChunks cs = (H2_PREFACE.drop n).take (joinChunks cs).length →
      readVersionRun (cs.map .chunk ++ .ioError e :: rest) (H2_PREFACE.take n) version
        = .ioErr e rest := by
  induction cs with
  | nil =>
    intro n e rest version _ hlen _
    have hn : n < H2_PREFACE.length := by
      simp only [joinChunks, List.length_nil, Nat.add_zero] at hlen
      exact hlen
    have hflen : (H2_PREFACE.take n).length = n := by
      simp only [List.length_take]; omega
    simp [readVersionRun, hflen, not_le.mpr hn]
  | cons b cs' ih =>
    intro n e rest version hne hlen hpre
    simp only [joinChunks] at hpre hlen
    rw [List.length_append] at hlen
    have hn : n < H2_PREFACE.length := by omega
    have hb : b ≠ [] := hne b (by simp)
    have hbpos : 0 < b.length := List.length_pos.mpr hb
    have hflen : (H2_PREFACE.take n).length = n := by
      simp only [List.length_take]; omega
    have hbdel : b.take (H2_PREFACE.length - n) = b :=
      List.take_of_length_le (by omega)
    have hmatch : b = (H2_PREFACE.drop n).take b.length := by
      have h1 := congrArg (List.take b.length) hpre
      rw [List.take_left, List.length_append, List.take_take,
        Nat.min_eq_left (Nat.le_add_right _ _)] at h1
      exact h1
    have hstep : (b :: cs').map ReadResult.chunk ++ ReadResult.ioError e :: rest
        = ReadResult.chunk b :: (cs'.map ReadResult.chunk ++ ReadResult.ioError e :: rest) := by
      simp
    rw [hstep]
    simp only [readVersionRun, hflen, if_neg (not_le.mpr hn)]
    split_ifs with hc
    · exfalso
      rcases hc with h0 | hneq
      · rw [hbdel] at h0
        omega
      · apply hneq
        rw [hbdel]
        exact hmatch
    · have hnb : H2_PREFACE.take (n + b.length) = H2_PREFACE.take n ++ b := by
        rw [List.take_add, ← hmatch]
      have hpre' : joinChunks cs' = (H2_PREFACE.drop (n + b.length)).take (joinChunks cs').length := by
        rw [List.length_append, List.take_add, ← hmatch] at hpre
        have h2 : (H2_PREFACE.drop n).drop b.length = H2_PREFACE.drop (n + b.length) := by
          rw [List.drop_drop]
        rw [h2] at hpre
        exact List.append_inj_right hpre rfl
      rw [hbdel, ← hnb]
      exact ih (n + b.length) e rest version (fun c hc => hne c (by simp [hc])) (by omega) hpre'

/-- Divergence: starting with the first `n` preface bytes in the buffer, if
    the arriving bytes differ from the remaining preface first at (relative)
    index `k`, with the diverging byte inside the buffer capacity, detection
    completes with `H1`; the rewind buffer extends the `n` buffered bytes by a
    prefix of the arriving bytes that strictly covers the diverging index. -/
theorem run_chunks_mismatch_h1 (cs : List (List Nat)) :
    ∀ (n k : Nat) (rest : List ReadResult) (version : Version),
      (∀ c ∈ cs, c ≠ []) →
      (joinChunks cs).take k = (H2_PREFACE.drop n).take k →
      k < (joinChunks cs).length →
      n + k < H2_PREFACE.length →
      (joinChunks cs)[k]? ≠ H2_PREFACE[n + k]? →
      ∃ m r, readVersionRun (cs.map .chunk ++ rest) (H2_PREFACE.take n) version
          = .ready .H1 (H2_PREFACE.take n ++ (joinChunks cs).take m) r
        ∧ k < m ∧ m ≤ (joinChunks cs).length := by
  induction cs with
  | nil =>
    intro n k rest version _ _ hk _ _
    simp [joinChunks] at hk
  | cons b cs' ih =>
    intro n k rest version hne htake hk hnk hget
    simp only [joinChunks] at htake hk hget ⊢
    rw [List.length_append] at hk
    have hn : n < H2_PREFACE.length := by omega
    have hb : b ≠ [] := hne b (by simp)
    have hbpos : 0 < b.length := List.length_pos.mpr hb
    have hflen : (H2_PREFACE.take n).length = n := by
      simp only [List.length_take]; omega
    have hmlen : (b.take (H2_PREFACE.length - n)).length
        = min (H2_PREFACE.length - n) b.length := List.length_take _ _
    have hstep : (b :: cs').map ReadResult.chunk ++ rest
        = ReadResult.chunk b :: (cs'.map ReadResult.chunk ++ rest) := by simp
    rw [hstep]
    simp only [readVersionRun, hflen, if_neg (not_le.mpr hn)]
    by_cases hkm : k < (b.take (H2_PREFACE.length - n)).length
    · -- the diverging byte is inside the delivered part of this chunk
      have hdel : (b ++ joinChunks cs').take ((b.take (H2_PREFACE.length - n)).length)
          = b.take (H2_PREFACE.length - n) := by
        rcases Nat.le_total (H2_PREFACE.length - n) b.length with hle | hle
        · rw [hmlen, Nat.min_eq_left hle, List.take_append_of_le_length hle]
        · rw [hmlen, Nat.min_eq_right hle,
            List.take_append_of_le_length (Nat.le_refl _), List.take_length,
            List.take_of_length_le hle]
      split_ifs with hc
      · refine ⟨(b.take (H2_PREFACE.length - n)).length,
          cs'.map ReadResult.chunk ++ rest, ?_, hkm, ?_⟩
        · rw [hdel]
        · rw [hmlen, List.length_append]
          omega
      · exfalso
        push_neg at hc
        apply hget
        calc (b ++ joinChunks cs')[k]?
            = b[k]? := List.getElem?_append_left (by omega)
          _ = (b.take (H2_PREFACE.length - n))[k]? :=
              (List.getElem?_take_of_lt (by omega)).symm
          _ = ((H2_PREFACE.drop n).take
                ((b.take (H2_PREFACE.length - n)).length))[k]? :=
              congrArg (fun l => l[k]?) hc.2
          _ = (H2_PREFACE.drop n)[k]? := List.getElem?_take_of_lt hkm
          _ = H2_PREFACE[n + k]? := List.getElem?_drop _ _ _
    · -- this whole chunk matches the preface; recurse on the rest
      have hble : min (H2_PREFACE.length - n) b.length ≤ k := by
        rw [hmlen] at hkm
        omega
      have hblt : b.length < H2_PREFACE.length - n := by
        by_contra h
        push_neg at h
        rw [Nat.min_eq_left h] at hble
        omega
      have hm : (b.take (H2_PREFACE.length - n)).length = b.length := by omega
      have hbdel : b.take (H2_PREFACE.length - n) = b :=
        List.take_of_length_le (by omega)
      have hbk : b.length ≤ k := by omega
      have hmatch : b = (H2_PREFACE.drop n).take b.length := by
        have h1 := congrArg (List.take b.length) htake
        rw [List.take_take, List.take_take, Nat.min_eq_left hbk,
          List.take_append_of_le_length (Nat.le_refl _), List.take_length] at h1
        exact h1
      split_ifs with hc
      · exfalso
        rcases hc with h0 | hneq
        · omega
        · apply hneq
          rw [hm, hbdel]
          exact hmatch
      · rw [hbdel]
        have hnb : H2_PREFACE.take (n + b.length) = H2_PREFACE.take n ++ b := by
          rw [List.take_add, ← hmatch]
        rw [← hnb]
        have htake' : (joinChunks cs').take (k - b.length)
            = (H2_PREFACE.drop (n + b.length)).take (k - b.length) := by
          have h1 := congrArg (List.drop b.length) htake
          rw [List.drop_take, List.drop_take, List.drop_left, List.drop_drop] at h1
          exact h1
        have hk' : k - b.length < (joinChunks cs').length := by omega
        have hnk' : (n + b.length) + (k - b.length) < H2_PREFACE.length := by omega
        have hget' : (joinChunks cs')[k - b.length]?
            ≠ H2_PREFACE[(n + b.length) + (k - b.length)]? := by
          have h2 : (b ++ joinChunks cs')[k]? = (joinChunks cs')[k - b.length]? :=
            List.getElem?_append_right hbk
          have h3 : (n + b.length) + (k - b.length) = n + k := by omega
          rw [h3, ← h2]
          exact hget
        obtain ⟨m', r, hr, hkm', hm'le⟩ := ih (n + b.length) (k - b.length) rest version
          (fun c hc => hne c (by simp [hc])) htake' hk' hnk' hget'
        refine ⟨b.length + m', r, ?_, by omega, ?_⟩
        · have h4 : (b ++ joinChunks cs').take (b.length + m')
              = b ++ (joinChunks cs').take m' := by
            rw [List.take_append_eq_append_take,
              List.take_of_length_le (by omega : b.length ≤ b.length + m')]
            congr 2
            omega
          rw [h4, ← List.append_assoc, ← hnb]
          exact hr
        · rw [List.length_append]
          omega

/-- Master classification: for any partition of a byte stream into non-empty
    read chunks followed by end-of-stream, detection completes, classifies
    `H2` exactly when the stream starts with the full 24-byte preface and `H1`
    otherwise, and primes the rewind buffer with a prefix of the stream. -/
theorem run_classify (cs : List (List Nat)) (hne : ∀ c ∈ cs, c ≠ []) :
    ∃ m r, readVersionRun (cs.map .chunk ++ [.chunk []]) [] .H2
      = .ready
          (if (joinChunks cs).take H2_PREFACE.length = H2_PREFACE then .H2 else .H1)
          ((joinChunks cs).take m) r := by
  rcases take_trichotomy H2_PREFACE (joinChunks cs) with
    hpre | ⟨hpre, hlen⟩ | ⟨k, hk1, hk2, hk3, hk4⟩
  · rw [if_pos hpre]
    obtain ⟨r, hr⟩ := run_chunks_complete_h2 cs 0 [.chunk []] .H2 hne (Nat.zero_le _)
      (by simpa using hpre.symm)
    refine ⟨H2_PREFACE.length, r, ?_⟩
    rw [hpre]
    simpa using hr
  · have hne2 : (joinChunks cs).take H2_PREFACE.length ≠ H2_PREFACE := by
      intro h
      rw [List.take_of_length_le (le_of_lt hlen)] at h
      have hlc := congrArg List.length h
      omega
    rw [if_neg hne2]
    have heq := run_chunks_eof_h1 cs 0 [] .H2 hne (by simpa using hlen)
      (by simpa using hpre)
    refine ⟨(joinChunks cs).length, [], ?_⟩
    rw [List.take_length]
    simpa using heq
  · have hne2 : (joinChunks cs).take H2_PREFACE.length ≠ H2_PREFACE := by
      intro h
      apply hk4
      calc (joinChunks cs)[k]?
          = ((joinChunks cs).take H2_PREFACE.length)[k]? :=
            (List.getElem?_take_of_lt hk1).symm
        _ = H2_PREFACE[k]? := by rw [h]
    rw [if_neg hne2]
    obtain ⟨m, r, hr, _, _⟩ := run_chunks_mismatch_h1 cs 0 k [.chunk []] .H2 hne
      (by simpa using hk3) hk2 (by simpa using hk1) (by simpa using hk4)
    exact ⟨m, r, by simpa using hr⟩

/-- `Version::unsupported` (compiled only when at least one of the `http1` /
    `http2` features is absent): the descriptive error naming the missing
    generation. -/
def Version.unsupported : Version → String
  | .H1 => "HTTP/1 is not supported"
  | .H2 => "HTTP/2 is not supported"

/-- Modelled from the spec: the protocol engines
    (`hyper::server::conn::http1::Connection`, `…::http2::Connection` and the
    upgradeable `http1` variant) are external collaborators outside this
    repository.  An engine is opaque except for: the rewind buffer it was
    constructed over, whether it is the upgrade-capable `http1` variant, the
    graceful-shutdown requests forwarded to it, and whether it has already run
    to completion (a completed engine ignores further shutdown requests). -/
structure Engine where
  rewindBuf : List Nat
  withUpgrades : Bool
  shutdownRequested : Bool
  done : Bool
deriving DecidableEq, Repr

/-- Modelled from the spec: forwarding a graceful-shutdown request to an
    engine; an engine that has already completed ignores it. -/
def engineGracefulShutdown (e : Engine) : Engine :=
  if e.done then e else { e with shutdownRequested := true }

/-- Engine construction (`builder.http1.serve_connection(io, service)` resp.
    `…x.with_upgrades()` / `builder.http2.serve_connection(io, service)`):
    the engine takes ownership of the rewindable transport primed with the
    sniffed bytes. -/
def mkEngine (buf : List Nat) (upgrades : Bool) : Engine :=
  { rewindBuf := buf, withUpgrades := upgrades, shutdownRequested := false,
    done := false }

/-- Modelled from the spec: one poll of an opaque engine — it either suspends
    or completes with an optional (opaque, string-valued) error. -/
inductive EnginePollOut where
  | pending : Engine → EnginePollOut
  | ready : Option String → Engine → EnginePollOut
deriving DecidableEq, Repr

/-- The error type of `Connection::poll` (`Box<dyn Error + Send + Sync>`):
    either a transport I/O error surfaced from detection or a
    descriptive/engine error message. -/
inductive ConnError where
  | io : Nat → ConnError
  | msg : String → ConnError
deriving DecidableEq, Repr

/-- `enum ConnState` of `Connection`: `ReadVersion` (holding the in-flight
    detection future, which in this model owns its unconsumed transport
    script), `H1` (a live http1 engine) or `H2` (a live http2 engine). -/
inductive ConnState where
  | readVersionState : List Nat → Version → List ReadResult → ConnState
  | h1 : Engine → ConnState
  | h2 : Engine → ConnState
deriving DecidableEq, Repr

/-- Outcome of one `Connection::poll`: suspended with the successor state, or
    completed (`Poll::Ready(Result<()>)`) with the state at completion. -/
inductive ConnPollOut where
  | pending : ConnState → ConnPollOut
  | done : Option ConnError → ConnState → ConnPollOut
deriving DecidableEq, Repr

/-- `impl Future for Connection` (`fn poll`), with the cargo features `http1`
    and `http2` as booleans and the opaque engine poll behaviours as
    parameters.  In `ReadVersion` state it drives the detection future; on
    `Ready(Ok)` it constructs the matching engine — when that generation is
    compiled in — and immediately polls it in the same invocation (the
    `loop`); when the generation is compiled out it completes with
    `version.unsupported()` and no engine is constructed.  In `H1`/`H2` state
    it forwards to the engine's poll. -/
def connPoll (http1 http2 : Bool) (stepH1 stepH2 : Engine → EnginePollOut) :
    ConnState → ConnPollOut
  | .readVersionState filled version t =>
    match readVersionRun t filled version with
    | .pending f v rest => .pending (.readVersionState f v rest)
    | .ioErr e rest => .done (some (.io e)) (.readVersionState filled version rest)
    | .ready v buf rest =>
      match v with
      | .H1 =>
        if http1 then
          match stepH1 (mkEngine buf false) with
          | .pending e => .pending (.h1 e)
          | .ready r e => .done (r.map ConnError.msg) (.h1 e)
        else
          .done (some (.msg (Version.unsupported .H1)))
            (.readVersionState filled version rest)
      | .H2 =>
        if http2 then
          match stepH2 (mkEngine buf false) with
          | .pending e => .pending (.h2 e)
          | .ready r e => .done (r.map ConnError.msg) (.h2 e)
        else
          .done (some (.msg (Version.unsupported .H2)))
            (.readVersionState filled version rest)
  | .h1 e =>
    match stepH1 e with
    | .pending e' => .pending (.h1 e')
    | .ready r e' => .done (r.map ConnError.msg) (.h1 e')
  | .h2 e =>
    match stepH2 e with
    | .pending e' => .pending (.h2 e')
    | .ready r e' => .done (r.map ConnError.msg) (.h2 e')

/-- `Connection::graceful_shutdown`: a no-op while in `ReadVersion` state;
    in `H1`/`H2` state it forwards the request to the embedded engine. -/
def connGracefulShutdown : ConnState → ConnState
  | .readVersionState f v t => .readVersionState f v t
  | .h1 e => .h1 (engineGracefulShutdown e)
  | .h2 e => .h2 (engineGracefulShutdown e)

/-- `enum UpgradeableConnState` of `UpgradeableConnection`: identical shape,
    but the `H1` state holds the upgrade-capable http1 engine. -/
inductive UpgConnState where
  | readVersionState : List Nat → Version → List ReadResult → UpgConnState
  | h1 : Engine → UpgConnState
  | h2 : Engine → UpgConnState
deriving DecidableEq, Repr

/-- Outcome of one `UpgradeableConnection::poll`. -/
inductive UpgConnPollOut where
  | pending : UpgConnState → UpgConnPollOut
  | done : Option ConnError → UpgConnState → UpgConnPollOut
deriving DecidableEq, Repr

/-- `impl Future for UpgradeableConnection` (`fn poll`): identical to
    `Connection::poll` except that the `H1` engine is constructed through
    `.with_upgrades()`. -/
def upgConnPoll (http1 http2 : Bool) (stepH1 stepH2 : Engine → EnginePollOut) :
    UpgConnState → UpgConnPollOut
  | .readVersionState filled version t =>
    match readVersionRun t filled version with
    | .pending f v rest => .pending (.readVersionState f v rest)
    | .ioErr e rest => .done (some (.io e)) (.readVersionState filled version rest)
    | .ready v buf rest =>
      match v with
      | .H1 =>
        if http1 then
          match stepH1 (mkEngine buf true) with
          | .pending e => .pending (.h1 e)
          | .ready r e => .done (r.map ConnError.msg) (.h1 e)
        else
          .done (some (.msg (Version.unsupported .H1)))
            (.readVersionState filled version rest)
      | .H2 =>
        if http2 then
          match stepH2 (mkEngine buf false) with
          | .pending e => .pending (.h2 e)
          | .ready r e => .done (r.map ConnError.msg) (.h2 e)
        else
          .done (some (.msg (Version.unsupported .H2)))
            (.readVersionState filled version rest)
  | .h1 e =>
    match stepH1 e with
    | .pending e' => .pending (.h1 e')
    | .ready r e' => .done (r.map ConnError.msg) (.h1 e')
  | .h2 e =>
    match stepH2 e with
    | .pending e' => .pending (.h2 e')
    | .ready r e' => .done (r.map ConnError.msg) (.h2 e')

/-- `UpgradeableConnection::graceful_shutdown`: no-op in `ReadVersion` state,
    forwarded to the engine otherwise. -/
def upgConnGracefulShutdown : UpgConnState → UpgConnState
  | .readVersionState f v t => .readVersionState f v t
  | .h1 e => .h1 (engineGracefulShutdown e)
  | .h2 e => .h2 (engineGracefulShutdown e)

/-- The three tags of the connection life-cycle state machine. -/
inductive ConnTag where
  | detecting : ConnTag
  | runningH1 : ConnTag
  | runningH2 : ConnTag
deriving DecidableEq, Repr

/-- Which tag a `ConnState` carries. -/
def ConnState.tag : ConnState → ConnTag
  | .readVersionState _ _ _ => .detecting
  | .h1 _ => .runningH1
  | .h2 _ => .runningH2

/-- Which tag an `UpgConnState` carries. -/
def UpgConnState.tag : UpgConnState → ConnTag
  | .readVersionState _ _ _ => .detecting
  | .h1 _ => .runningH1
  | .h2 _ => .runningH2

/-- The state carried by a poll outcome (successor state on `pending`, state
    at completion on `done`). -/
def connAfter : ConnPollOut → ConnState
  | .pending s => s
  | .done _ s => s

/-- The state carried by an upgradeable poll outcome. -/
def upgConnAfter : UpgConnPollOut → UpgConnState
  | .pending s => s
  | .done _ s => s

/-- Iterated advancement of a `Connection`: the state after `n` polls. -/
def connIter (http1 http2 : Bool) (stepH1 stepH2 : Engine → EnginePollOut) :
    Nat → ConnState → ConnState
  | 0, s => s
  | n + 1, s =>
    connIter http1 http2 stepH1 stepH2 n
      (connAfter (connPoll http1 http2 stepH1 stepH2 s))

/-- Iterated advancement of an `UpgradeableConnection`. -/
def upgConnIter (http1 http2 : Bool) (stepH1 stepH2 : Engine → EnginePollOut) :
    Nat → UpgConnState → UpgConnState
  | 0, s => s
  | n + 1, s =>
    upgConnIter http1 http2 stepH1 stepH2 n
      (upgConnAfter (upgConnPoll http1 http2 stepH1 stepH2 s))

/-- A running connection never changes tag under one more poll. -/
theorem connPoll_tag_fixed (http1 http2 : Bool) (stepH1 stepH2 : Engine → EnginePollOut)
    (s : ConnState) (h : s.tag ≠ .detecting) :
    (connAfter (connPoll http1 http2 stepH1 stepH2 s)).tag = s.tag := by
  cases s with
  | readVersionState f v t => exact absurd rfl h
  | h1 e => cases hs : stepH1 e <;> simp [connPoll, connAfter, ConnState.tag, hs]
  | h2 e => cases hs : stepH2 e <;> simp [connPoll, connAfter, ConnState.tag, hs]

/-- A running connection never changes tag under any number of polls. -/
theorem connIter_tag_fixed (http1 http2 : Bool) (stepH1 stepH2 : Engine → EnginePollOut) :
    ∀ (n : Nat) (s : ConnState), s.tag ≠ .detecting →
      (connIter http1 http2 stepH1 stepH2 n s).tag = s.tag := by
  intro n
  induction n with
  | zero => intro s _; rfl
  | succ n ih =>
    intro s h
    have hstep := connPoll_tag_fixed http1 http2 stepH1 stepH2 s h
    have hrec := ih (connAfter (connPoll http1 http2 stepH1 stepH2 s))
      (by rw [hstep]; exact h)
    simp only [connIter]
    rw [hrec, hstep]

/-- Splitting an iterated advancement. -/
theorem connIter_add (http1 http2 : Bool) (stepH1 stepH2 : Engine → EnginePollOut) :
    ∀ (b a : Nat) (s : ConnState),
      connIter http1 http2 stepH1 stepH2 (a + b) s
        = connIter http1 http2 stepH1 stepH2 a
            (connIter http1 http2 stepH1 stepH2 b s) := by
  intro b
  induction b with
  | zero => intro a s; rfl
  | succ b ih =>
    intro a s
    have h1 : a + (b + 1) = (a + b) + 1 := by omega
    rw [h1]
    simp only [connIter]
    exact ih a _

/-- A running upgradeable connection never changes tag under one more poll. -/
theorem upgConnPoll_tag_fixed (http1 http2 : Bool) (stepH1 stepH2 : Engine → EnginePollOut)
    (s : UpgConnState) (h : s.tag ≠ .detecting) :
    (upgConnAfter (upgConnPoll http1 http2 stepH1 stepH2 s)).tag = s.tag := by
  cases s with
  | readVersionState f v t => exact absurd rfl h
  | h1 e => cases hs : stepH1 e <;> simp [upgConnPoll, upgConnAfter, UpgConnState.tag, hs]
  | h2 e => cases hs : stepH2 e <;> simp [upgConnPoll, upgConnAfter, UpgConnState.tag, hs]

/-- A running upgradeable connection never changes tag under any number of
    polls. -/
theorem upgConnIter_tag_fixed (http1 http2 : Bool) (stepH1 stepH2 : Engine → EnginePollOut) :
    ∀ (n : Nat) (s : UpgConnState), s.tag ≠ .detecting →
      (upgConnIter http1 http2 stepH1 stepH2 n s).tag = s.tag := by
  intro n
  induction n with
  | zero => intro s _; rfl
  | succ n ih =>
    intro s h
    have hstep := upgConnPoll_tag_fixed http1 http2 stepH1 stepH2 s h
    have hrec := ih (upgConnAfter (upgConnPoll http1 http2 stepH1 stepH2 s))
      (by rw [hstep]; exact h)
    simp only [upgConnIter]
    rw [hrec, hstep]

/-- Splitting an iterated advancement of an upgradeable connection. -/
theorem upgConnIter_add (http1 http2 : Bool) (stepH1 stepH2 : Engine → EnginePollOut) :
    ∀ (b a : Nat) (s : UpgConnState),
      upgConnIter http1 http2 stepH1 stepH2 (a + b) s
        = upgConnIter http1 http2 stepH1 stepH2 a
            (upgConnIter http1 http2 stepH1 stepH2 b s) := by
  intro b
  induction b with
  | zero => intro a s; rfl
  | succ b ih =>
    intro a s
    have h1 : a + (b + 1) = (a + b) + 1 := by omega
    rw [h1]
    simp only [upgConnIter]
    exact ih a _

/-- C5: if, when classification completes, the classified protocol generation
    is compiled out (`http1` resp. `http2` feature absent), both the plain and
    the upgradeable Driver complete immediately with the descriptive error
    naming the missing generation ("HTTP/1 is not supported" / "HTTP/2 is not
    supported"), and no protocol engine is constructed (the state is still the
    `ReadVersion` state). -/
theorem c5_unsupported_generation :
    ∀ (http1 http2 : Bool) (stepH1 stepH2 : Engine → EnginePollOut)
      (filled buf : List Nat) (version : Version) (t rest : List ReadResult),
      (readVersionRun t filled version = .ready .H1 buf rest →
        connPoll false http2 stepH1 stepH2 (.readVersionState filled version t)
          = .done (some (.msg (Version.unsupported .H1)))
              (.readVersionState filled version rest)
        ∧ upgConnPoll false http2 stepH1 stepH2 (.readVersionState filled version t)
          = .done (some (.msg (Version.unsupported .H1)))
              (.readVersionState filled version rest)) ∧
      (readVersionRun t filled version = .ready .H2 buf rest →
        connPoll http1 false stepH1 stepH2 (.readVersionState filled version t)
          = .done (some (.msg (Version.unsupported .H2)))
              (.readVersionState filled version rest)
        ∧ upgConnPoll http1 false stepH1 stepH2 (.readVersionState filled version t)
          = .done (some (.msg (Version.unsupported .H2)))
              (.readVersionState filled version rest)) ∧
      Version.unsupported .H1 = "HTTP/1 is not supported" ∧
      Version.unsupported .H2 = "HTTP/2 is not supported" := by
  intro http1 http2 stepH1 stepH2 filled buf version t rest
  refine ⟨?_, ?_, rfl, rfl⟩
  · intro h
    constructor <;> simp [connPoll, upgConnPoll, h]
  · intro h
    constructor <;> simp [connPoll, upgConnPoll, h]

/-- Witness for C5 at a concrete input: a connection that immediately reports
    end-of-stream classifies `H1`; with the `http1` feature off the Driver
    errors with "HTTP/1 is not supported"; a connection sending the full
    preface classifies `H2`; with the `http2` feature off the Driver errors
    with "HTTP/2 is not supported". -/
theorem c5_unsupported_generation_witness :
    (connPoll false true (fun e => .pending e) (fun e => .pending e)
        (.readVersionState [] .H2 [.chunk []])
      = .done (some (.msg (Version.unsupported .H1))) (.readVersionState [] .H2 []))
    ∧ (connPoll true false (fun e => .pending e) (fun e => .pending e)
        (.readVersionState [] .H2 [.chunk H2_PREFACE])
      = .done (some (.msg (Version.unsupported .H2))) (.readVersionState [] .H2 [])) := by
  constructor
  · exact ((c5_unsupported_generation false true (fun e => .pending e) (fun e => .pending e)
      [] [] .H2 [.chunk []] []).1 (by decide)).1
  · exact ((c5_unsupported_generation true false (fun e => .pending e) (fun e => .pending e)
      [] H2_PREFACE .H2 [.chunk H2_PREFACE] []).2.1 (by decide)).1

/-- C6: requesting graceful shutdown is a no-op while detecting (the state,
    including the in-flight detection future and its transport, is unchanged);
    once an engine is running (plain or upgradeable driver, either generation)
    the request is forwarded verbatim to that engine; and an engine that has
    already completed ignores the request, so calling it after the Driver has
    completed has no effect. -/
theorem c6_graceful_shutdown :
    (∀ (f : List Nat) (v : Version) (t : List ReadResult),
      connGracefulShutdown (.readVersionState f v t) = .readVersionState f v t ∧
      upgConnGracefulShutdown (.readVersionState f v t) = .readVersionState f v t) ∧
    (∀ e : Engine,
      connGracefulShutdown (.h1 e) = .h1 (engineGracefulShutdown e) ∧
      connGracefulShutdown (.h2 e) = .h2 (engineGracefulShutdown e) ∧
      upgConnGracefulShutdown (.h1 e) = .h1 (engineGracefulShutdown e) ∧
      upgConnGracefulShutdown (.h2 e) = .h2 (engineGracefulShutdown e)) ∧
    (∀ e : Engine, e.done = true →
      connGracefulShutdown (.h1 e) = .h1 e ∧
      connGracefulShutdown (.h2 e) = .h2 e ∧
      upgConnGracefulShutdown (.h1 e) = .h1 e ∧
      upgConnGracefulShutdown (.h2 e) = .h2 e) := by
  refine ⟨fun f v t => ⟨rfl, rfl⟩, fun e => ⟨rfl, rfl, rfl, rfl⟩, fun e h => ?_⟩
  have he : engineGracefulShutdown e = e := by
    simp [engineGracefulShutdown, h]
  refine ⟨?_, ?_, ?_, ?_⟩ <;> simp [connGracefulShutdown, upgConnGracefulShutdown, he]

/-- Witness for C6 at a concrete completed engine. -/
theorem c6_graceful_shutdown_witness :
    connGracefulShutdown (.h1 ⟨[1, 2], false, false, true⟩) = .h1 ⟨[1, 2], false, false, true⟩ :=
  (c6_graceful_shutdown.2.2 ⟨[1, 2], false, false, true⟩ rfl).1

/-- C7: the connection state carries exactly one of the three tags
    (`detecting`, `runningH1`, `runningH2`); one poll of a running connection
    never changes its tag; and over any sequence of polls, once a state is not
    `detecting` its tag stays fixed forever — so the transition happens at
    most once, only out of `detecting`, is never reversed and the two running
    tags are never swapped.  Both the plain and the upgradeable driver are
    covered, for arbitrary feature flags and arbitrary engine behaviour. -/
theorem c7_state_transitions :
    ∀ (http1 http2 : Bool) (stepH1 stepH2 : Engine → EnginePollOut),
      (∀ s : ConnState,
        s.tag = .detecting ∨ s.tag = .runningH1 ∨ s.tag = .runningH2) ∧
      (∀ s : ConnState, s.tag ≠ .detecting →
        (connAfter (connPoll http1 http2 stepH1 stepH2 s)).tag = s.tag) ∧
      (∀ (s : ConnState) (n m : Nat), n ≤ m →
        (connIter http1 http2 stepH1 stepH2 n s).tag ≠ .detecting →
        (connIter http1 http2 stepH1 stepH2 m s).tag
          = (connIter http1 http2 stepH1 stepH2 n s).tag) ∧
      (∀ s : UpgConnState,
        s.tag = .detecting ∨ s.tag = .runningH1 ∨ s.tag = .runningH2) ∧
      (∀ s : UpgConnState, s.tag ≠ .detecting →
        (upgConnAfter (upgConnPoll http1 http2 stepH1 stepH2 s)).tag = s.tag) ∧
      (∀ (s : UpgConnState) (n m : Nat), n ≤ m →
        (upgConnIter http1 http2 stepH1 stepH2 n s).tag ≠ .detecting →
        (upgConnIter http1 http2 stepH1 stepH2 m s).tag
          = (upgConnIter http1 http2 stepH1 stepH2 n s).tag) := by
  intro http1 http2 stepH1 stepH2
  refine ⟨?_, connPoll_tag_fixed http1 http2 stepH1 stepH2, ?_, ?_,
    upgConnPoll_tag_fixed http1 http2 stepH1 stepH2, ?_⟩
  · intro s
    cases s <;> simp [ConnState.tag]
  · intro s n m hnm hdet
    have hm : m = (m - n) + n := by omega
    rw [hm, connIter_add]
    exact connIter_tag_fixed http1 http2 stepH1 stepH2 (m - n) _ hdet
  · intro s
    cases s <;> simp [UpgConnState.tag]
  · intro s n m hnm hdet
    have hm : m = (m - n) + n := by omega
    rw [hm, upgConnIter_add]
    exact upgConnIter_tag_fixed http1 http2 stepH1 stepH2 (m - n) _ hdet

/-- Witness for C7 at a concrete running connection, engine behaviour and poll
    counts. -/
theorem c7_state_transitions_witness :
    (connIter true true (fun e => .pending e) (fun e => .pending e) 3
        (.h1 (mkEngine [] false))).tag
      = (connIter true true (fun e => .pending e) (fun e => .pending e) 1
          (.h1 (mkEngine [] false))).tag :=
  (c7_state_transitions true true (fun e => .pending e) (fun e => .pending e)).2.2.1
    (.h1 (mkEngine [] false)) 1 3 (by decide) (by decide)


/-- C9: detection-buffer invariants over a single `ReadVersion::poll` from any
    state whose fill cursor is within the fixed 24-byte capacity.  On
    completion the owned byte sequence produced from the buffer is at most 24
    bytes; on suspension the saved fill buffer is at most 24 bytes and extends
    the previous fill buffer unaltered (already-read bytes are preserved); in
    every outcome the unconsumed transport script is a suffix of the incoming
    one, so no byte is ever requested twice.  In this embedding the fill
    buffer is exactly the list of initialised bytes, so bytes beyond the fill
    cursor do not exist to be read, and only the `ready` completion converts
    the buffer into the owned rewind sequence. -/
theorem c9_buffer_invariants :
    ∀ (t : List ReadResult) (filled : List Nat) (version : Version),
      filled.length ≤ 24 →
      (∀ v bf r, readVersionPoll t filled version = .ready v bf r →
        bf.length ≤ 24 ∧ (∃ d, bf = filled ++ d) ∧ (∃ u, t = u ++ r)) ∧
      (∀ f v r, readVersionPoll t filled version = .pending f v r →
        f.length ≤ 24 ∧ (∃ d, f = filled ++ d) ∧ (∃ u, t = u ++ r)) ∧
      (∀ e r, readVersionPoll t filled version = .ioErr e r →
        ∃ u, t = u ++ r) := by
  intro t
  induction t with
  | nil =>
    intro filled version hf
    by_cases hg : H2_PREFACE.length ≤ filled.length
    · have heq : readVersionPoll [] filled version = .ready version filled [] := by
        simp [readVersionPoll, hg]
      refine ⟨?_, ?_, ?_⟩
      · intro v bf r h
        rw [heq] at h
        obtain ⟨rfl, rfl, rfl⟩ := PollOut.ready.inj h
        exact ⟨hf, ⟨[], by simp⟩, ⟨[], rfl⟩⟩
      · intro f v r h
        rw [heq] at h
        exact absurd h (by simp)
      · intro e r h
        rw [heq] at h
        exact absurd h (by simp)
    · have heq : readVersionPoll [] filled version = .pending filled version [] := by
        simp [readVersionPoll, hg]
      refine ⟨?_, ?_, ?_⟩
      · intro v bf r h
        rw [heq] at h
        exact absurd h (by simp)
      · intro f v r h
        rw [heq] at h
        obtain ⟨rfl, rfl, rfl⟩ := PollOut.pending.inj h
        exact ⟨hf, ⟨[], by simp⟩, ⟨[], rfl⟩⟩
      · intro e r h
        rw [heq] at h
        exact absurd h (by simp)
  | cons hd rest ih =>
    intro filled version hf
    cases hd with
    | pending =>
      by_cases hg : H2_PREFACE.length ≤ filled.length
      · have heq : readVersionPoll (.pending :: rest) filled version
            = .ready version filled (.pending :: rest) := by
          simp [readVersionPoll, hg]
        refine ⟨?_, ?_, ?_⟩
        · intro v bf r h
          rw [heq] at h
          obtain ⟨rfl, rfl, rfl⟩ := PollOut.ready.inj h
          exact ⟨hf, ⟨[], by simp⟩, ⟨[], rfl⟩⟩
        · intro f v r h
          rw [heq] at h
          exact absurd h (by simp)
        · intro e r h
          rw [heq] at h
          exact absurd h (by simp)
      · have heq : readVersionPoll (.pending :: rest) filled version
            = .pending filled version rest := by
          simp [readVersionPoll, hg]
        refine ⟨?_, ?_, ?_⟩
        · intro v bf r h
          rw [heq] at h
          exact absurd h (by simp)
        · intro f v r h
          rw [heq] at h
          obtain ⟨rfl, rfl, rfl⟩ := PollOut.pending.inj h
          exact ⟨hf, ⟨[], by simp⟩, ⟨[ReadResult.pending], rfl⟩⟩
        · intro e r h
          rw [heq] at h
          exact absurd h (by simp)
    | ioError e' =>
      by_cases hg : H2_PREFACE.length ≤ filled.length
      · have heq : readVersionPoll (.ioError e' :: rest) filled version
            = .ready version filled (.ioError e' :: rest) := by
          simp [readVersionPoll, hg]
        refine ⟨?_, ?_, ?_⟩
        · intro v bf r h
          rw [heq] at h
          obtain ⟨rfl, rfl, rfl⟩ := PollOut.ready.inj h
          exact ⟨hf, ⟨[], by simp⟩, ⟨[], rfl⟩⟩
        · intro f v r h
          rw [heq] at h
          exact absurd h (by simp)
        · intro e r h
          rw [heq] at h
          exact absurd h (by simp)
      · have heq : readVersionPoll (.ioError e' :: rest) filled version
            = .ioErr e' rest := by
          simp [readVersionPoll, hg]
        refine ⟨?_, ?_, ?_⟩
        · intro v bf r h
          rw [heq] at h
          exact absurd h (by simp)
        · intro f v r h
          rw [heq] at h
          exact absurd h (by simp)
        · intro e r h
          rw [heq] at h
          obtain ⟨rfl, rfl⟩ := PollOut.ioErr.inj h
          exact ⟨[ReadResult.ioError e'], rfl⟩
    | chunk b =>
      have hP : H2_PREFACE.length = 24 := by decide
      by_cases hg : H2_PREFACE.length ≤ filled.length
      · have heq : readVersionPoll (.chunk b :: rest) filled version
            = .ready version filled (.chunk b :: rest) := by
          simp [readVersionPoll, hg]
        refine ⟨?_, ?_, ?_⟩
        · intro v bf r h
          rw [heq] at h
          obtain ⟨rfl, rfl, rfl⟩ := PollOut.ready.inj h
          exact ⟨hf, ⟨[], by simp⟩, ⟨[], rfl⟩⟩
        · intro f v r h
          rw [heq] at h
          exact absurd h (by simp)
        · intro e r h
          rw [heq] at h
          exact absurd h (by simp)
      · have hnf : (filled ++ b.take (H2_PREFACE.length - filled.length)).length ≤ 24 := by
          have h1 : (b.take (H2_PREFACE.length - filled.length)).length
              = min (H2_PREFACE.length - filled.length) b.length := List.length_take _ _
          simp only [List.length_append]
          omega
        by_cases hc : (b.take (H2_PREFACE.length - filled.length)).length = 0 ∨
            b.take (H2_PREFACE.length - filled.length)
              ≠ (H2_PREFACE.drop filled.length).take
                  (b.take (H2_PREFACE.length - filled.length)).length
        · have heq : readVersionPoll (.chunk b :: rest) filled version
              = .ready .H1 (filled ++ b.take (H2_PREFACE.length - filled.length)) rest := by
            simp only [readVersionPoll, if_neg hg, if_pos hc]
          refine ⟨?_, ?_, ?_⟩
          · intro v bf r h
            rw [heq] at h
            obtain ⟨rfl, rfl, rfl⟩ := PollOut.ready.inj h
            exact ⟨hnf, ⟨_, rfl⟩, ⟨[ReadResult.chunk b], rfl⟩⟩
          · intro f v r h
            rw [heq] at h
            exact absurd h (by simp)
          · intro e r h
            rw [heq] at h
            exact absurd h (by simp)
        · have heq : readVersionPoll (.chunk b :: rest) filled version
              = readVersionPoll rest
                  (filled ++ b.take (H2_PREFACE.length - filled.length)) version := by
            simp only [readVersionPoll, if_neg hg, if_neg hc]
          refine ⟨?_, ?_, ?_⟩
          · intro v bf r h
            rw [heq] at h
            obtain ⟨hb, ⟨d, hd⟩, ⟨u, hu⟩⟩ :=
              ((ih (filled ++ b.take (H2_PREFACE.length - filled.length)) version hnf).1)
                v bf r h
            exact ⟨hb, ⟨_, by rw [hd, List.append_assoc]⟩,
              ⟨ReadResult.chunk b :: u, by rw [hu]; rfl⟩⟩
          · intro f v r h
            rw [heq] at h
            obtain ⟨hb, ⟨d, hd⟩, ⟨u, hu⟩⟩ :=
              ((ih (filled ++ b.take (H2_PREFACE.length - filled.length)) version hnf).2.1)
                f v r h
            exact ⟨hb, ⟨_, by rw [hd, List.append_assoc]⟩,
              ⟨ReadResult.chunk b :: u, by rw [hu]; rfl⟩⟩
          · intro e r h
            rw [heq] at h
            obtain ⟨u, hu⟩ :=
              ((ih (filled ++ b.take (H2_PREFACE.length - filled.length)) version hnf).2.2)
                e r h
            exact ⟨ReadResult.chunk b :: u, by rw [hu]; rfl⟩

/-- Witness for C9 at a concrete poll: one chunk diverging from the preface
    immediately completes; the invariants are instantiated there. -/
theorem c9_buffer_invariants_witness :
    ([99, 98].length ≤ 24 ∧ (∃ d, [99, 98] = ([] : List Nat) ++ d) ∧
      (∃ u, [ReadResult.chunk [99, 98]] = u ++ ([] : List ReadResult))) :=
  (c9_buffer_invariants [ReadResult.chunk [99, 98]] [] .H2 (by decide)).1
    .H1 [99, 98] [] (by decide)

/-- C1 (counterexample): the modern-protocol preface constant is 24 bytes
    long, not fourteen.  A byte sequence of 14+ bytes whose first fourteen
    bytes equal the first fourteen preface bytes — i.e. that exactly matches
    the preface the spec describes — is classified `H1` (legacy), not `H2`,
    refuting the claim as stated. -/
theorem c1_counterexample :
    (H2_PREFACE.take 14).length = 14 ∧
    H2_PREFACE.length = 24 ∧
    (H2_PREFACE.take 14 ++ [88, 88, 88, 88]).take 14 = H2_PREFACE.take 14 ∧
    14 ≤ (H2_PREFACE.take 14 ++ [88, 88, 88, 88]).length ∧
    readVersionRun [.chunk (H2_PREFACE.take 14 ++ [88, 88, 88, 88]), .chunk []] [] .H2
      = .ready .H1 (H2_PREFACE.take 14 ++ [88, 88, 88, 88]) [.chunk []] := by
  decide

/-- C1 (amended): the preface constant is 24 bytes long; for every byte
    sequence whose first 24 or more bytes exactly equal the preface constant,
    delivered in any partition into non-empty read chunks, classification
    yields "modern protocol" (H2). -/
theorem c1_preface_classifies_h2 :
    ∀ (cs : List (List Nat)) (rest : List ReadResult),
      (∀ c ∈ cs, c ≠ []) →
      (joinChunks cs).take H2_PREFACE.length = H2_PREFACE →
      H2_PREFACE.length = 24 ∧
      ∃ r, readVersionRun (cs.map .chunk ++ rest) [] .H2 = .ready .H2 H2_PREFACE r := by
  intro cs rest hne hpre
  refine ⟨by decide, ?_⟩
  obtain ⟨r, hr⟩ := run_chunks_complete_h2 cs 0 rest .H2 hne (Nat.zero_le _)
    (by simpa using hpre.symm)
  exact ⟨r, by simpa using hr⟩

/-- Witness for the amended C1 at a concrete input: the preface followed by a
    stray byte, delivered in one chunk. -/
theorem c1_preface_classifies_h2_witness :
    H2_PREFACE.length = 24 ∧
    ∃ r, readVersionRun ([H2_PREFACE ++ [71]].map ReadResult.chunk ++ []) [] .H2
      = .ready .H2 H2_PREFACE r :=
  c1_preface_classifies_h2 [H2_PREFACE ++ [71]] [] (by decide) (by decide)

/-- C2: for every fixed byte sequence, the classification tag is the same for
    every partition of the sequence into successive non-empty read chunks
    (each chunk delivered by one read): any two partitions with the same
    concatenation complete with the same version — in particular
    one-byte-at-a-time delivery classifies identically to single-shot
    delivery.  Additionally, a read that suspends (`Poll::Pending`) leaves the
    drive unchanged: detection resumes where it left off. -/
theorem c2_chunking_independent :
    (∀ (cs cs' : List (List Nat)),
      (∀ c ∈ cs, c ≠ []) → (∀ c ∈ cs', c ≠ []) →
      joinChunks cs = joinChunks cs' →
      ∃ v m r m' r',
        readVersionRun (cs.map .chunk ++ [.chunk []]) [] .H2
          = .ready v ((joinChunks cs).take m) r ∧
        readVersionRun (cs'.map .chunk ++ [.chunk []]) [] .H2
          = .ready v ((joinChunks cs').take m') r') ∧
    (∀ (t : List ReadResult) (filled : List Nat) (version : Version),
      filled.length < H2_PREFACE.length →
      readVersionRun (.pending :: t) filled version
        = readVersionRun t filled version) := by
  constructor
  · intro cs cs' hne hne' hjoin
    obtain ⟨m, r, hr⟩ := run_classify cs hne
    obtain ⟨m', r', hr'⟩ := run_classify cs' hne'
    refine ⟨if (joinChunks cs).take H2_PREFACE.length = H2_PREFACE then .H2 else .H1,
      m, r, m', r', hr, ?_⟩
    rw [hjoin]
    exact hr'
  · intro t filled version hlt
    simp [readVersionRun, not_le.mpr hlt]

/-- Witness for C2: the stream `[80, 82, 73]` delivered byte-wise in two
    chunks and in a single chunk classifies identically. -/
theorem c2_chunking_independent_witness :
    ∃ v m r m' r',
      readVersionRun ([[80], [82, 73]].map ReadResult.chunk ++ [.chunk []]) [] .H2
        = .ready v ((joinChunks [[80], [82, 73]]).take m) r ∧
      readVersionRun ([[80, 82, 73]].map ReadResult.chunk ++ [.chunk []]) [] .H2
        = .ready v ((joinChunks [[80, 82, 73]]).take m') r' :=
  c2_chunking_independent.1 [[80], [82, 73]] [[80, 82, 73]]
    (by decide) (by decide) (by decide)

/-- C3: for every byte stream that diverges from the preface at a position
    `k` with `0 ≤ k < 14`, delivered in any partition into non-empty chunks,
    classification yields "legacy protocol" (H1), and the first `k` matching
    bytes plus the diverging byte are preserved, unaltered and in their
    original order, at the front of the rewind buffer handed to the engine
    (the buffer is a prefix of the stream extending strictly past `k`). -/
theorem c3_divergence_legacy :
    ∀ (cs : List (List Nat)) (rest : List ReadResult) (k : Nat),
      (∀ c ∈ cs, c ≠ []) →
      (joinChunks cs).take k = H2_PREFACE.take k →
      k < (joinChunks cs).length →
      k < 14 →
      (joinChunks cs)[k]? ≠ H2_PREFACE[k]? →
      ∃ m r, readVersionRun (cs.map .chunk ++ rest) [] .H2
          = .ready .H1 ((joinChunks cs).take m) r
        ∧ k < m
        ∧ ((joinChunks cs).take m).take (k + 1) = (joinChunks cs).take (k + 1) := by
  intro cs rest k hne htake hk hk14 hget
  have hP : H2_PREFACE.length = 24 := by decide
  obtain ⟨m, r, hr, hkm, hmle⟩ := run_chunks_mismatch_h1 cs 0 k rest .H2 hne
    (by simpa using htake) hk (by omega) (by simpa using hget)
  refine ⟨m, r, by simpa using hr, hkm, ?_⟩
  rw [List.take_take]
  congr 1
  omega

/-- Witness for C3: a stream diverging from the preface at position 2. -/
theorem c3_divergence_legacy_witness :
    ∃ m r, readVersionRun ([[80, 82, 99, 5]].map ReadResult.chunk ++ []) [] .H2
        = .ready .H1 ((joinChunks [[80, 82, 99, 5]]).take m) r
      ∧ 2 < m
      ∧ ((joinChunks [[80, 82, 99, 5]]).take m).take 3 = (joinChunks [[80, 82, 99, 5]]).take 3 :=
  c3_divergence_legacy [[80, 82, 99, 5]] [] 2 (by decide) (by decide)
    (by decide) (by decide) (by decide)

/-- C4: a connection closed by the peer (a read delivering zero bytes) after
    sending fewer bytes than the full preface, all of them a strict prefix of
    the preface, completes detection immediately with "legacy protocol" (H1);
    the equation holds for an arbitrary script tail after the end-of-stream
    read, so no further bytes are requested from the transport. -/
theorem c4_early_eof_legacy :
    ∀ (cs : List (List Nat)) (rest : List ReadResult),
      (∀ c ∈ cs, c ≠ []) →
      joinChunks cs = H2_PREFACE.take (joinChunks cs).length →
      (joinChunks cs).length < H2_PREFACE.length →
      readVersionRun (cs.map .chunk ++ .chunk [] :: rest) [] .H2
        = .ready .H1 (joinChunks cs) rest := by
  intro cs rest hne hpre hlen
  have h := run_chunks_eof_h1 cs 0 rest .H2 hne (by omega) (by simpa using hpre)
  simpa using h

/-- Witness for C4: the two-byte strict preface prefix `[80, 82]` followed by
    end-of-stream. -/
theorem c4_early_eof_legacy_witness :
    readVersionRun ([[80], [82]].map ReadResult.chunk ++ ReadResult.chunk [] :: []) [] .H2
      = .ready .H1 (joinChunks [[80], [82]]) [] :=
  c4_early_eof_legacy [[80], [82]] [] (by decide) (by decide) (by decide)

/-- C8: if a transport read during detection returns an error, detection
    terminates by propagating exactly that error (the same error value,
    unmodified, with no retry — the equation holds for an arbitrary script
    tail, so nothing further is read), and produces no classification and no
    rewindable transport (the `ioErr` outcome carries neither). -/
theorem c8_error_propagation :
    ∀ (cs : List (List Nat)) (e : Nat) (rest : List ReadResult),
      (∀ c ∈ cs, c ≠ []) →
      joinChunks cs = H2_PREFACE.take (joinChunks cs).length →
      (joinChunks cs).length < H2_PREFACE.length →
      readVersionRun (cs.map .chunk ++ .ioError e :: rest) [] .H2 = .ioErr e rest := by
  intro cs e rest hne hpre hlen
  have h := run_chunks_ioErr cs 0 e rest .H2 hne (by omega) (by simpa using hpre)
  simpa using h

/-- Witness for C8: one matching byte, then a failing read with error code 5. -/
theorem c8_error_propagation_witness :
    readVersionRun ([[80]].map ReadResult.chunk ++ ReadResult.ioError 5 :: []) [] .H2
      = .ioErr 5 [] :=
  c8_error_propagation [[80]] 5 [] (by decide) (by decide) (by decide)

/-- C10: whenever detection completes with a classification, the rewind
    buffer handed to the engine is a prefix of the byte stream in arrival
    order (first conjunct: the buffer is `take m` of the stream for some
    `m`); and when a single read chunk diverges from the preface mid-chunk
    (within the 24-byte capacity), the whole chunk — every byte beyond the
    diverging position included — ends up in the rewind buffer, so the engine
    may receive more than the `k` matching bytes plus the diverging byte
    (second conjunct: the buffer is the entire chunk `b`). -/
theorem c10_rewind_exact :
    (∀ (cs : List (List Nat)), (∀ c ∈ cs, c ≠ []) →
      ∃ v m r, readVersionRun (cs.map .chunk ++ [.chunk []]) [] .H2
        = .ready v ((joinChunks cs).take m) r) ∧
    (∀ (b : List Nat) (k : Nat),
      b.length ≤ H2_PREFACE.length → k < b.length →
      b.take k = H2_PREFACE.take k → b[k]? ≠ H2_PREFACE[k]? →
      readVersionRun [.chunk b] [] .H2 = .ready .H1 b []) := by
  constructor
  · intro cs hne
    obtain ⟨m, r, hr⟩ := run_classify cs hne
    exact ⟨_, m, r, hr⟩
  · intro b k hble hkb htake hget
    have hneq : b ≠ H2_PREFACE.take b.length := by
      intro heq
      apply hget
      calc b[k]? = (H2_PREFACE.take b.length)[k]? := congrArg (fun l => l[k]?) heq
        _ = H2_PREFACE[k]? := List.getElem?_take_of_lt hkb
    simp only [readVersionRun, List.length_nil, Nat.sub_zero, List.drop_zero,
      List.nil_append]
    rw [List.take_of_length_le hble,
      if_neg (show ¬ H2_PREFACE.length ≤ 0 by decide),
      if_pos (Or.inr hneq)]

/-- Witness for C10: a nine-byte chunk diverging from the preface at position
    5; the whole chunk — including the three bytes beyond the diverging
    position — is in the rewind buffer. -/
theorem c10_rewind_exact_witness :
    readVersionRun [.chunk [80, 82, 73, 32, 42, 99, 1, 2, 3]] [] .H2
      = .ready .H1 [80, 82, 73, 32, 42, 99, 1, 2, 3] [] :=
  c10_rewind_exact.2 [80, 82, 73, 32, 42, 99, 1, 2, 3] 5
    (by decide) (by decide) (by decide) (by decide)
